import Mathlib

/-!
Verification of the split-storage codec and string helpers of the
proton-shared repository.

The secure-session-storage core (`separateParts`, `mergeParts`, `save`,
`load`) is exercised by `src/test/helpers/secureSessionStorage.spec.js`
but its implementation file is not part of the source tree; the
operational definitions below are therefore modelled from the design
specification (spec.md sections 2, 4 and 6) and checked against the
concrete values asserted by that test.  The helpers in
`src/lib/helpers/string.ts` are embedded directly from the source.

Representation choices:
* a byte buffer (JS `Uint8Array`) is a `List Nat` whose entries are
  below 256; the bound is carried as a hypothesis where it matters;
* a JS string is a Lean `String`; each char models one UTF-16 code
  unit (`charCodeAt`), faithful for all code points below 0x10000 and
  in particular for every input appearing in the claims;
* the channel-1 "document" (a JSON-serialised string-to-string map
  stored in `window.name`) is modelled as the map itself, since JSON
  round-trips the map exactly; channel 2 (`sessionStorage`) is a
  per-key association list.
-/

set_option maxRecDepth 16384

namespace ProtonShared

/-! ### Base64 transport codec

Standard base64 with `=` padding, used by the storage core as a
transport-safe text encoding for byte buffers (spec section 6). -/

/-- Character of the standard base64 alphabet at index `n` (0..63). -/
def b64Char (n : Nat) : Char :=
  Char.ofNat (if n < 26 then 65 + n else if n < 52 then 71 + n
    else if n < 62 then n - 4 else if n = 62 then 43 else 47)

/-- Index of a character in the standard base64 alphabet, `none` when
the character is not in the alphabet. -/
def b64Index (c : Char) : Option Nat :=
  if 65 ≤ c.toNat ∧ c.toNat ≤ 90 then some (c.toNat - 65)
  else if 97 ≤ c.toNat ∧ c.toNat ≤ 122 then some (c.toNat - 71)
  else if 48 ≤ c.toNat ∧ c.toNat ≤ 57 then some (c.toNat + 4)
  else if c.toNat = 43 then some 62
  else if c.toNat = 47 then some 63
  else none

/-- Base64-encode a byte list, three bytes to four characters, with
`=` padding on a trailing group of one or two bytes. -/
def encodeB64 : List Nat → List Char
  | [] => []
  | [a] => [b64Char (a / 4), b64Char (a % 4 * 16), '=', '=']
  | [a, b] => [b64Char (a / 4), b64Char (a % 4 * 16 + b / 16), b64Char (b % 16 * 4), '=']
  | a :: b :: c :: rest =>
      b64Char (a / 4) :: b64Char (a % 4 * 16 + b / 16) :: b64Char (b % 16 * 4 + c / 64)
        :: b64Char (c % 64) :: encodeB64 rest

/-- Base64-decode a character list, `none` on malformed input. -/
def decodeB64 : List Char → Option (List Nat)
  | [] => some []
  | c1 :: c2 :: c3 :: c4 :: rest =>
    if rest.isEmpty ∧ c3 = '=' ∧ c4 = '=' then
      match b64Index c1, b64Index c2 with
      | some i1, some i2 => some [i1 * 4 + i2 / 16]
      | _, _ => none
    else if rest.isEmpty ∧ c4 = '=' then
      match b64Index c1, b64Index c2, b64Index c3 with
      | some i1, some i2, some i3 => some [i1 * 4 + i2 / 16, i2 % 16 * 16 + i3 / 4]
      | _, _, _ => none
    else
      match b64Index c1, b64Index c2, b64Index c3, b64Index c4, decodeB64 rest with
      | some i1, some i2, some i3, some i4, some bs =>
          some ((i1 * 4 + i2 / 16) :: (i2 % 16 * 16 + i3 / 4) :: (i3 % 4 * 64 + i4) :: bs)
      | _, _, _, _, _ => none
  | _ => none

/-- Base64 encoding of a byte list as a string. -/
def b64OfBytes (bs : List Nat) : String := String.mk (encodeB64 bs)

/-! ### Helpers from src/lib/helpers/string.ts -/

/-- Embedding of `binaryStringToArray` (src/lib/helpers/string.ts):
`result[i] = str.charCodeAt(i)` written into a `Uint8Array`, whose
element assignment truncates modulo 256. -/
def binaryStringToArray (str : String) : List Nat :=
  str.data.map fun c => c.toNat % 256

/-- Embedding of `arrayToBinaryString` (src/lib/helpers/string.ts):
`String.fromCharCode` applied to every byte.  The source walks the
array in chunks of 2^14 only to stay below the engine argument limit;
the concatenated result equals a single map over all bytes. -/
def arrayToBinaryString (bytes : List Nat) : String :=
  String.mk (bytes.map Char.ofNat)

/-- ASCII lower-casing of one character, modelling the effect of the
`i` flag of the regular expression in `hasProtonDomain` (the pattern
is pure ASCII, so only ASCII letters are affected). -/
def charToLower (c : Char) : Char :=
  if 65 ≤ c.toNat ∧ c.toNat ≤ 90 then Char.ofNat (c.toNat + 32) else c

/-- Boolean test that `suf` is a suffix of `l`. -/
def sufTest (suf l : List Char) : Bool :=
  l.drop (l.length - suf.length) == suf

/-- Embedding of `hasProtonDomain` (src/lib/helpers/string.ts):
`/@(protonmail\.(com|ch)|pm\.me|)$/i.test(email)`.  The pattern is
anchored only at the end, so the test succeeds exactly when the email
ends (case-insensitively) with one of the four alternatives; note the
trailing empty alternative, which makes a bare final `@` match. -/
def hasProtonDomain (email : String) : Bool :=
  let e := email.data.map charToLower
  sufTest "@protonmail.com".data e || sufTest "@protonmail.ch".data e
    || sufTest "@pm.me".data e || sufTest "@".data e

/-- Character set used by `getRandomString`. -/
def grsCharset : List Char :=
  "ABCDEFGHIJKLMNOPQRSTUVWXYZabcdefghijklmnopqrstuvwxyz0123456789".data

/-- Embedding of `getRandomString` (src/lib/helpers/string.ts):
`charset[values[i] % charset.length]` for `i < length`, where `values`
models the `Uint32Array` filled by the ambient `getRandomValues`
source — the function reads fresh random state on every call, so the
drawn values appear here as an explicit argument. -/
def getRandomString (values : List Nat) (length : Nat) : String :=
  String.mk ((List.range length).map fun i => grsCharset.getD (values.getD i 0 % grsCharset.length) 'A')

/-- ASCII upper-casing of one character (effect of `toUpperCase` on
the ASCII inputs relevant here). -/
def charToUpper (c : Char) : Char :=
  if 97 ≤ c.toNat ∧ c.toNat ≤ 122 then Char.ofNat (c.toNat - 32) else c

/-- Embedding of `capitalize` (src/lib/helpers/string.ts). -/
def capitalize (str : String) : String :=
  match str.data with
  | [] => ""
  | c :: rest => String.mk (charToUpper c :: rest)

/-- Embedding of `truncate` (src/lib/helpers/string.ts):
`str.substring(0, charsToDisplay - omission.length) + omission` when
too long; JS `substring` clamps a negative bound to zero exactly as
Nat subtraction does. -/
def truncate (str : String) (charsToDisplay : Nat) (omission : String) : String :=
  if str.data.length = 0 then str
  else if str.data.length > charsToDisplay then
    String.mk (str.data.take (charsToDisplay - omission.data.length)) ++ omission
  else str

/-- Embedding of `getType` (src/unnamed/part_001): a string is
returned as is, an array yields its first element or `""`. -/
def getType : Sum String (List String) → String
  | Sum.inl s => s
  | Sum.inr [] => ""
  | Sum.inr (t :: _) => t

/-! ### Split-storage codec core

The implementation file of this core is not part of the source tree
(only its test is), so the following definitions are modelled from the
specification, with the capacity constant pinned by the values the
test asserts. -/

/-- Modelled from the spec: the fixed capacity constant `C` of the
padded buffer.  The prose of the spec reports an observed value of 512
bytes, but the repository test
(src/test/helpers/secureSessionStorage.spec.js) asserts stored share
values whose base64 text decodes to exactly 256 bytes, so the
capacity realised on the reference inputs is 256. -/
def CAP : Nat := 256

/-- Modelled from the spec (Encoder, section 4.1): right-pad the raw
bytes with zero bytes to exactly `C` bytes.  Oversize input is beyond
the documented contract (the spec leaves it undefined); the model
truncates so the length invariant holds unconditionally. -/
def padBuffer (C : Nat) (bs : List Nat) : List Nat :=
  bs.take C ++ List.replicate (C - bs.length) 0

/-- Modelled from the spec: `encode` converts the string to its raw
byte representation (the binary-string bytes) and pads to `C`. -/
def encode (C : Nat) (s : String) : List Nat :=
  padBuffer C (binaryStringToArray s)

/-- Modelled from the spec (section 4.1): the reference behavior
recovers the content length by stripping trailing zero bytes. -/
def stripTrailingZeros (bs : List Nat) : List Nat :=
  (bs.reverse.dropWhile fun b => b == 0).reverse

/-- Modelled from the spec: `decode` strips the zero padding and turns
the remaining bytes back into a string. -/
def decode (bs : List Nat) : String :=
  arrayToBinaryString (stripTrailingZeros bs)

/-- Modelled from the spec (Splitter, section 4.2): share A is the
drawn random bytes, share B is `plain XOR shareA` byte-wise.  The
random draw is passed explicitly as `shareA`. -/
def split (shareA plain : List Nat) : List Nat × List Nat :=
  (shareA, plain.zipWith Nat.xor shareA)

/-- Error taxonomy entry (c) of spec section 7. -/
inductive CombineError where
  | lengthMismatch
deriving DecidableEq

/-- Modelled from the spec (Combiner, section 4.3): XOR the two
shares; fails with a length-mismatch error if either buffer length
differs from `C` or from the other. -/
def combine (C : Nat) (a b : List Nat) : Except CombineError (List Nat) :=
  if a.length = C ∧ b.length = C then Except.ok (a.zipWith Nat.xor b)
  else Except.error CombineError.lengthMismatch

/-- State of the two storage channels: `doc` is the single channel-1
slot (absent or one whole key-to-base64 mapping), `kv` the per-key
channel-2 store. -/
structure Channels where
  doc : Option (List (String × String))
  kv : List (String × String)

/-- Per-key write into the channel-2 store: overwrite the entry of `k`
when present, append otherwise. -/
def kvSet (k v : String) : List (String × String) → List (String × String)
  | [] => [(k, v)]
  | (k', v') :: rest => if k' = k then (k, v) :: rest else (k', v') :: kvSet k v rest

/-- Modelled from the spec (public API, section 6) and the test
interface: split every field of `data` into two base64 shares;
`rnds i` supplies the random share-A bytes drawn for the i-th field.
Returns the pair (share1 map, share2 map). -/
def separateParts (C : Nat) (rnds : Nat → List Nat) (data : List (String × String)) :
    List (String × String) × List (String × String) :=
  (data.enum.map fun p => (p.2.1, b64OfBytes (split (rnds p.1) (padBuffer C (binaryStringToArray p.2.2))).1),
   data.enum.map fun p => (p.2.1, b64OfBytes (split (rnds p.1) (padBuffer C (binaryStringToArray p.2.2))).2))

/-- Modelled from the spec: merge one pair of base64 share texts:
base64-decode both, combine (which validates the lengths against `C`),
strip the padding and return the string; any per-key failure yields
`none` so the key is skipped rather than aborting the batch (error
policy of spec section 7). -/
def mergePart (C : Nat) (t1 t2 : String) : Option String :=
  match decodeB64 t1.data, decodeB64 t2.data with
  | some b1, some b2 =>
    match combine C b1 b2 with
    | Except.ok plain => some (decode plain)
    | Except.error _ => none
  | _, _ => none

/-- Modelled from the spec and the test interface: merge two
field-keyed share maps key by key, skipping keys that are missing from
the second map or whose shares fail to merge. -/
def mergeParts (C : Nat) (m1 m2 : List (String × String)) : List (String × String) :=
  m1.filterMap fun p => (m2.lookup p.1).bind fun t2 => (mergePart C p.2 t2).map fun v => (p.1, v)

/-- Modelled from the spec (Persistence Adapter, section 4.4): `save`
splits every requested key of `data`, commits the whole share-1 map as
the single channel-1 document (dropping any previous document) and
writes each share-2 entry per key into channel 2. -/
def save (C : Nat) (rnds : Nat → List Nat) (keys : List String)
    (data : List (String × String)) (st : Channels) : Channels :=
  let entries := keys.filterMap fun k => (data.lookup k).map fun v => (k, v)
  let shares := separateParts C rnds entries
  { doc := some shares.1
    kv := shares.2.foldl (fun acc p => kvSet p.1 p.2 acc) st.kv }

/-- Modelled from the spec: the per-key read of `load`: both channels
must hold the key and the shares must merge, otherwise the key is
dropped (no error). -/
def loadKey (C : Nat) (st : Channels) (k : String) : Option String :=
  match (st.doc.getD []).lookup k, st.kv.lookup k with
  | some t1, some t2 => mergePart C t1 t2
  | _, _ => none

/-- Modelled from the spec (Persistence Adapter, section 4.4): `load`
reads the channel-1 document (absent means empty) and channel 2 and
returns the mapping of every requested key recoverable from both. -/
def load (C : Nat) (st : Channels) (keys : List String) : List (String × String) :=
  keys.filterMap fun k => (loadKey C st k).map fun v => (k, v)

/-! ### Lemmas about the base64 codec -/

theorem b64Index_b64Char : ∀ n, n < 64 → b64Index (b64Char n) = some n := by decide

theorem b64Char_ne_pad : ∀ n, n < 64 → b64Char n ≠ '=' := by decide

/-- Induction on a list cut in groups of three, matching the recursion
scheme of `encodeB64`. -/
theorem list3Ind {α : Type} {P : List α → Prop} (h0 : P []) (h1 : ∀ a, P [a])
    (h2 : ∀ a b, P [a, b]) (h3 : ∀ a b c rest, P rest → P (a :: b :: c :: rest)) :
    ∀ l, P l
  | [] => h0
  | [a] => h1 a
  | [a, b] => h2 a b
  | a :: b :: c :: rest => h3 a b c rest (list3Ind h0 h1 h2 h3 rest)

/-- Decoding inverts encoding on every byte list. -/
theorem decodeB64_encodeB64 :
    ∀ bs : List Nat, (∀ b ∈ bs, b < 256) → decodeB64 (encodeB64 bs) = some bs := by
  intro bs
  induction bs using list3Ind with
  | h0 => intro _; rfl
  | h1 a =>
    intro h
    have ha : a < 256 := h a (by simp)
    have i1 : a / 4 < 64 := by omega
    have i2 : a % 4 * 16 < 64 := by omega
    simp only [encodeB64, decodeB64]
    rw [if_pos (by simp), b64Index_b64Char _ i1, b64Index_b64Char _ i2]
    simp only [Option.some.injEq, List.cons.injEq, and_true]
    omega
  | h2 a b =>
    intro h
    have ha : a < 256 := h a (by simp)
    have hb : b < 256 := h b (by simp)
    have i1 : a / 4 < 64 := by omega
    have i2 : a % 4 * 16 + b / 16 < 64 := by omega
    have i3 : b % 16 * 4 < 64 := by omega
    simp only [encodeB64, decodeB64]
    rw [if_neg fun hc => b64Char_ne_pad _ i3 hc.2.1, if_pos (by simp),
      b64Index_b64Char _ i1, b64Index_b64Char _ i2, b64Index_b64Char _ i3]
    simp only [Option.some.injEq, List.cons.injEq, and_true]
    omega
  | h3 a b c rest ih =>
    intro h
    have ha : a < 256 := h a (by simp)
    have hb : b < 256 := h b (by simp)
    have hc : c < 256 := h c (by simp)
    have hrest : ∀ x ∈ rest, x < 256 := fun x hx => h x (by simp [hx])
    have i1 : a / 4 < 64 := by omega
    have i2 : a % 4 * 16 + b / 16 < 64 := by omega
    have i3 : b % 16 * 4 + c / 64 < 64 := by omega
    have i4 : c % 64 < 64 := by omega
    simp only [encodeB64, decodeB64]
    rw [if_neg fun hx => b64Char_ne_pad _ i3 hx.2.1,
      if_neg fun hx => b64Char_ne_pad _ i4 hx.2,
      b64Index_b64Char _ i1, b64Index_b64Char _ i2, b64Index_b64Char _ i3,
      b64Index_b64Char _ i4, ih hrest]
    simp only [Option.some.injEq, List.cons.injEq, and_true]
    refine ⟨by omega, by omega, by omega⟩

/-! ### Lemmas about buffers -/

theorem stringData_mk (l : List Char) : (String.mk l).data = l := rfl

theorem zipWith_xor_cancel :
    ∀ (a p : List Nat), p.length = a.length →
      List.zipWith Nat.xor a (List.zipWith Nat.xor p a) = p := by
  intro a
  induction a with
  | nil =>
    intro p hp
    rw [List.length_nil, List.length_eq_zero] at hp
    subst hp; rfl
  | cons x xs ih =>
    intro p hp
    cases p with
    | nil => simp at hp
    | cons y ys =>
      simp only [List.zipWith_cons_cons, List.cons.injEq]
      refine ⟨?_, ih ys (by simpa using hp)⟩
      show x ^^^ (y ^^^ x) = y
      rw [Nat.xor_comm y x, ← Nat.xor_assoc, Nat.xor_self, Nat.zero_xor]

theorem zipWith_xor_zero :
    ∀ (p : List Nat) (n : Nat), p.length ≤ n →
      List.zipWith Nat.xor p (List.replicate n 0) = p := by
  intro p
  induction p with
  | nil => intro n _; simp
  | cons x xs ih =>
    intro n hn
    cases n with
    | zero => simp at hn
    | succ m =>
      simp only [List.replicate_succ, List.zipWith_cons_cons, List.cons.injEq]
      exact ⟨Nat.xor_zero x, ih m (by simpa using hn)⟩

theorem zipWith_xor_lt :
    ∀ (l1 l2 : List Nat), (∀ x ∈ l1, x < 256) → (∀ y ∈ l2, y < 256) →
      ∀ z ∈ List.zipWith Nat.xor l1 l2, z < 256 := by
  intro l1
  induction l1 with
  | nil => intro l2 _ _ z hz; simp at hz
  | cons x xs ih =>
    intro l2 h1 h2 z hz
    cases l2 with
    | nil => simp at hz
    | cons y ys =>
      simp only [List.zipWith_cons_cons, List.mem_cons] at hz
      rcases hz with rfl | hz
      · exact Nat.xor_lt_two_pow (n := 8) (h1 x (by simp)) (h2 y (by simp))
      · exact ih ys (fun a ha => h1 a (by simp [ha])) (fun a ha => h2 a (by simp [ha])) z hz

theorem dropWhile_zero_replicate_append (l : List Nat) :
    ∀ k, (List.replicate k 0 ++ l).dropWhile (fun b => b == 0) =
      l.dropWhile fun b => b == 0 := by
  intro k
  induction k with
  | zero => rfl
  | succ m ih => simpa only [List.replicate_succ, List.cons_append, List.dropWhile] using ih

theorem stripTrailingZeros_pad (bs : List Nat) (k : Nat) (h : bs.getLast? ≠ some 0) :
    stripTrailingZeros (bs ++ List.replicate k 0) = bs := by
  unfold stripTrailingZeros
  rw [List.reverse_append, List.reverse_replicate, dropWhile_zero_replicate_append]
  have hd : bs.reverse.dropWhile (fun b => b == 0) = bs.reverse := by
    cases hr : bs.reverse with
    | nil => rfl
    | cons x xs =>
      have hx : ¬ x = 0 := by
        intro h0
        apply h
        rw [← List.head?_reverse, hr, h0]
        rfl
      simp [List.dropWhile, beq_false_of_ne hx]
  rw [hd, List.reverse_reverse]

theorem padBuffer_length (C : Nat) (bs : List Nat) : (padBuffer C bs).length = C := by
  simp only [padBuffer, List.length_append, List.length_take, List.length_replicate]
  omega

theorem padBuffer_eq_append (C : Nat) (bs : List Nat) (h : bs.length ≤ C) :
    padBuffer C bs = bs ++ List.replicate (C - bs.length) 0 := by
  simp [padBuffer, List.take_of_length_le h]

theorem padBuffer_lt (C : Nat) (bs : List Nat) (h : ∀ b ∈ bs, b < 256) :
    ∀ b ∈ padBuffer C bs, b < 256 := by
  intro b hb
  simp only [padBuffer, List.mem_append] at hb
  rcases hb with hb | hb
  · exact h b (List.take_subset _ _ hb)
  · rw [List.eq_of_mem_replicate hb]; omega

theorem binaryStringToArray_lt (s : String) : ∀ b ∈ binaryStringToArray s, b < 256 := by
  intro b hb
  simp only [binaryStringToArray, List.mem_map] at hb
  obtain ⟨c, _, rfl⟩ := hb
  exact Nat.mod_lt _ (by omega)

theorem char_toNat_ofNat {n : Nat} (h : n < 256) : (Char.ofNat n).toNat = n := by
  have hv : n.isValidChar := Or.inl (by omega)
  simp [Char.ofNat, Char.toNat, hv, Char.ofNatAux, UInt32.toNat]

theorem binary_array_string_cancel (bs : List Nat) (h : ∀ b ∈ bs, b < 256) :
    binaryStringToArray (arrayToBinaryString bs) = bs := by
  induction bs with
  | nil => rfl
  | cons x xs ih =>
    have hx : x < 256 := h x (by simp)
    have hxs : ∀ b ∈ xs, b < 256 := fun b hb => h b (by simp [hb])
    have tail := ih hxs
    simp only [binaryStringToArray, arrayToBinaryString, stringData_mk, List.map_cons,
      List.cons.injEq] at tail ⊢
    refine ⟨?_, tail⟩
    rw [char_toNat_ofNat hx, Nat.mod_eq_of_lt hx]

theorem array_binary_string_cancel (s : String) (h : ∀ c ∈ s.data, c.toNat < 256) :
    arrayToBinaryString (binaryStringToArray s) = s := by
  cases s with
  | mk l =>
    simp only [stringData_mk] at h
    simp only [arrayToBinaryString, binaryStringToArray, stringData_mk, List.map_map]
    congr 1
    induction l with
    | nil => rfl
    | cons c cs ih =>
      have hc : c.toNat < 256 := h c (by simp)
      simp only [List.map_cons, Function.comp_apply, List.cons.injEq]
      refine ⟨?_, ih fun d hd => h d (by simp [hd])⟩
      rw [Nat.mod_eq_of_lt hc, Char.ofNat_toNat]

/-! ### Lemmas about the storage channels -/

theorem lookup_kvSet (k k' v : String) :
    ∀ l : List (String × String),
      List.lookup k' (kvSet k v l) = if k' = k then some v else List.lookup k' l := by
  intro l
  induction l with
  | nil =>
    by_cases h : k' = k
    · subst h; simp [kvSet]
    · simp [kvSet, List.lookup, beq_false_of_ne h, h]
  | cons p rest ih =>
    obtain ⟨k0, v0⟩ := p
    by_cases h0 : k0 = k
    · subst h0
      by_cases h : k' = k0
      · subst h; simp [kvSet]
      · simp [kvSet, List.lookup, beq_false_of_ne h, h]
    · rw [kvSet, if_neg h0]
      by_cases h : k' = k0
      · subst h
        have hk : ¬ k' = k := fun he => h0 (he ▸ rfl)
        simp [List.lookup, hk]
      · simp only [List.lookup, beq_false_of_ne h]
        exact ih

theorem lookup_foldl_kvSet (k : String) :
    ∀ (l : List (String × String)) (acc : List (String × String)),
      (∀ p ∈ l, p.1 ≠ k) →
      List.lookup k (l.foldl (fun a p => kvSet p.1 p.2 a) acc) = List.lookup k acc := by
  intro l
  induction l with
  | nil => intro acc _; rfl
  | cons p rest ih =>
    intro acc h
    simp only [List.foldl_cons]
    rw [ih _ fun q hq => h q (by simp [hq]), lookup_kvSet,
      if_neg fun he => h p (by simp) he.symm]

theorem lookup_none_of_keys {β : Type} (k : String) :
    ∀ l : List (String × β), (∀ p ∈ l, p.1 ≠ k) → List.lookup k l = none := by
  intro l
  induction l with
  | nil => intro _; rfl
  | cons p rest ih =>
    intro h
    obtain ⟨k0, v0⟩ := p
    have : ¬ k = k0 := fun he => h (k0, v0) (by simp) he.symm
    simp only [List.lookup, beq_false_of_ne this]
    exact ih fun q hq => h q (by simp [hq])

theorem lookup_load (C : Nat) (st : Channels) :
    ∀ (keys : List String) (k : String),
      List.lookup k (load C st keys) = if k ∈ keys then loadKey C st k else none := by
  intro keys
  induction keys with
  | nil => intro k; simp [load]
  | cons k0 rest ih =>
    intro k
    have ihk := ih k
    simp only [load, List.filterMap_cons] at ihk ⊢
    cases h0 : loadKey C st k0 with
    | none =>
      simp only [Option.map_none']
      rw [ihk]
      by_cases hk : k = k0
      · subst hk
        by_cases hm : k ∈ rest
        · simp [hm]
        · simp [hm, h0]
      · simp [List.mem_cons, hk]
    | some v =>
      simp only [Option.map_some']
      by_cases hk : k = k0
      · subst hk
        simp [List.lookup, h0]
      · simp only [List.lookup, beq_false_of_ne hk, ihk]
        simp [List.mem_cons, hk]

theorem mergePart_b64 (C : Nat) (a b : List Nat)
    (ha : ∀ x ∈ a, x < 256) (hb : ∀ x ∈ b, x < 256)
    (hla : a.length = C) (hlb : b.length = C) :
    mergePart C (b64OfBytes a) (b64OfBytes b) = some (decode (a.zipWith Nat.xor b)) := by
  simp only [mergePart, b64OfBytes, stringData_mk, decodeB64_encodeB64 a ha,
    decodeB64_encodeB64 b hb, combine]
  rw [if_pos ⟨hla, hlb⟩]

theorem save_entry_keys (C : Nat) (rnds : Nat → List Nat) (keys : List String)
    (data : List (String × String)) (st : Channels) :
    (∀ p ∈ (save C rnds keys data st).doc.getD [], p.1 ∈ keys)
    ∧ ∀ p ∈ (separateParts C rnds
        (keys.filterMap fun k => (data.lookup k).map fun v => (k, v))).2, p.1 ∈ keys := by
  constructor
  all_goals
    intro p hp
    simp only [save, separateParts, Option.getD_some, List.mem_map] at hp
    obtain ⟨q, hq, rfl⟩ := hp
    have hmem := List.snd_mem_of_mem_enum hq
    simp only [List.mem_filterMap, Option.map_eq_some'] at hmem
    obtain ⟨k, hk, v, hv, hkv⟩ := hmem
    simpa [← hkv] using hk

/-- Saving one key and loading it back recovers the value, for any
random share whose draw has the contracted length and byte range. -/
theorem save_load_single (C : Nat) (k v : String) (rnds : Nat → List Nat) (st : Channels)
    (h1 : (rnds 0).length = C) (h2 : ∀ b ∈ rnds 0, b < 256)
    (h3 : (binaryStringToArray v).length ≤ C)
    (h4 : (binaryStringToArray v).getLast? ≠ some 0)
    (h5 : ∀ c ∈ v.data, c.toNat < 256) :
    load C (save C rnds [k] [(k, v)] st) [k] = [(k, v)] := by
  have hlookup : List.lookup k [(k, v)] = some v := by simp [List.lookup]
  have hsave : save C rnds [k] [(k, v)] st =
      { doc := some [(k, b64OfBytes (rnds 0))]
        kv := kvSet k
          (b64OfBytes ((padBuffer C (binaryStringToArray v)).zipWith Nat.xor (rnds 0)))
          st.kv } := by
    simp [save, separateParts, split, hlookup, List.enum, List.enumFrom]
  have hpadlt : ∀ b ∈ padBuffer C (binaryStringToArray v), b < 256 :=
    padBuffer_lt C _ (binaryStringToArray_lt v)
  have hshBlt : ∀ b ∈ (padBuffer C (binaryStringToArray v)).zipWith Nat.xor (rnds 0), b < 256 :=
    zipWith_xor_lt _ _ hpadlt h2
  have hpadlen : (padBuffer C (binaryStringToArray v)).length = C := padBuffer_length C _
  have hshBlen : ((padBuffer C (binaryStringToArray v)).zipWith Nat.xor (rnds 0)).length = C := by
    rw [List.length_zipWith, hpadlen, h1, Nat.min_self]
  have hmerge := mergePart_b64 C (rnds 0)
    ((padBuffer C (binaryStringToArray v)).zipWith Nat.xor (rnds 0)) h2 hshBlt h1 hshBlen
  have hcancel : List.zipWith Nat.xor (rnds 0)
      (List.zipWith Nat.xor (padBuffer C (binaryStringToArray v)) (rnds 0)) =
      padBuffer C (binaryStringToArray v) :=
    zipWith_xor_cancel (rnds 0) _ (by rw [hpadlen, h1])
  have hdecode : decode (padBuffer C (binaryStringToArray v)) = v := by
    rw [padBuffer_eq_append C _ h3, decode, stripTrailingZeros_pad _ _ h4,
      array_binary_string_cancel v h5]
  have hload : loadKey C
      { doc := some [(k, b64OfBytes (rnds 0))]
        kv := kvSet k
          (b64OfBytes ((padBuffer C (binaryStringToArray v)).zipWith Nat.xor (rnds 0)))
          st.kv } k = some v := by
    simp only [loadKey, Option.getD_some]
    rw [show List.lookup k [(k, b64OfBytes (rnds 0))] = some (b64OfBytes (rnds 0)) by
        simp [List.lookup],
      lookup_kvSet, if_pos rfl]
    exact hmerge.trans (by rw [hcancel, hdecode])
  rw [hsave]
  simp only [load, List.filterMap_cons, List.filterMap_nil, hload, Option.map_some']

/-! ### Claim theorems -/

/-- C1 (amended): the buffer-level round-trip law holds in full: for every
buffer `x` of length `C` and every drawn share A of length `C`, combining the
two shares produced by split recovers `x` exactly, regardless of the random
bytes; the string-level law `decode(combine(split(encode(s)))) = s` holds for
every string `s` of byte length at most `C` whose byte representation does
not end in a zero byte (a trailing zero byte is indistinguishable from the
zero padding and is stripped by decode, which is what the counterexample
exhibits). -/
theorem c1_roundtrip_amended (C : Nat) :
    (∀ x shareA : List Nat, x.length = C → shareA.length = C →
      combine C (split shareA x).1 (split shareA x).2 = Except.ok x)
    ∧ ∀ (s : String) (shareA : List Nat), shareA.length = C →
      (binaryStringToArray s).length ≤ C →
      (binaryStringToArray s).getLast? ≠ some 0 →
      (∀ c ∈ s.data, c.toNat < 256) →
      (combine C (split shareA (encode C s)).1 (split shareA (encode C s)).2).map decode
        = Except.ok s := by
  have key : ∀ x shareA : List Nat, x.length = C → shareA.length = C →
      combine C (split shareA x).1 (split shareA x).2 = Except.ok x := by
    intro x shareA hx ha
    simp only [split, combine]
    rw [if_pos ⟨ha, by rw [List.length_zipWith, hx, ha, Nat.min_self]⟩,
      zipWith_xor_cancel shareA x (by rw [hx, ha])]
  refine ⟨key, ?_⟩
  intro s shareA ha hlen hlast hcodes
  have hdec : decode (encode C s) = s := by
    rw [encode, padBuffer_eq_append C _ hlen, decode, stripTrailingZeros_pad _ _ hlast,
      array_binary_string_cancel s hcodes]
  rw [key (encode C s) shareA (by rw [encode]; exact padBuffer_length C _) ha]
  simp [Except.map, hdec]

/-- C1 witness: the amended round trip applied to the buffer 1,2,3 padded by
zeros with a concrete share, and to the string bar with the all-zero share. -/
theorem c1_roundtrip_amended_witness :
    combine 3 (split [7, 8, 9] [1, 2, 3]).1 (split [7, 8, 9] [1, 2, 3]).2 = Except.ok [1, 2, 3]
    ∧ (combine CAP (split (List.replicate CAP 0) (encode CAP "bar")).1
        (split (List.replicate CAP 0) (encode CAP "bar")).2).map decode = Except.ok "bar" :=
  ⟨(c1_roundtrip_amended 3).1 [1, 2, 3] [7, 8, 9] (by decide) (by decide),
   (c1_roundtrip_amended CAP).2 "bar" (List.replicate CAP 0) (by simp)
     (by decide) (by decide) (by decide)⟩

/-- C1 counterexample: the string made of one NUL character has byte length
1, at most the capacity, yet the full pipeline returns the empty string (with
the all-zero random share as the concrete draw): the claim as stated fails on
strings whose bytes end in a zero byte. -/
theorem c1_roundtrip_counterexample :
    (binaryStringToArray (String.mk [Char.ofNat 0])).length ≤ CAP
    ∧ (combine CAP
        (split (List.replicate CAP 0) (encode CAP (String.mk [Char.ofNat 0]))).1
        (split (List.replicate CAP 0) (encode CAP (String.mk [Char.ofNat 0]))).2).map decode
      = Except.ok ""
    ∧ "" ≠ String.mk [Char.ofNat 0] := by
  refine ⟨by decide, by rfl, by decide⟩

/-- C2: save(Lbrack foo Rbrack, foo maps to bar) followed by
load(Lbrack foo Rbrack) returns exactly the mapping foo maps to bar, for
every injected random-bytes source (modelled as the drawn share-A bytes,
which the randomBytes contract makes a length-C byte list). -/
theorem c2_save_load (rnds : Nat → List Nat) (st : Channels)
    (h1 : (rnds 0).length = CAP) (h2 : ∀ b ∈ rnds 0, b < 256) :
    load CAP (save CAP rnds ["foo"] [("foo", "bar")] st) ["foo"] = [("foo", "bar")] :=
  save_load_single CAP "foo" "bar" rnds st h1 h2 (by decide) (by decide) (by decide)

/-- C2 witness: the save/load round trip at the all-zero random source and
empty channels. -/
theorem c2_save_load_witness :
    load CAP (save CAP (fun _ => List.replicate CAP 0) ["foo"] [("foo", "bar")]
      ⟨none, []⟩) ["foo"] = [("foo", "bar")] :=
  c2_save_load (fun _ => List.replicate CAP 0) ⟨none, []⟩ (by simp)
    fun b hb => by rw [List.eq_of_mem_replicate hb]; omega

/-- C4: load is a total function (it cannot throw) that omits every requested
key missing from either channel, and returns every requested key whose two
shares are present and merge. -/
theorem c4_partial_presence (C : Nat) (st : Channels) (keys : List String) :
    (∀ k ∈ keys, ((st.doc.getD []).lookup k = none ∨ st.kv.lookup k = none) →
      List.lookup k (load C st keys) = none)
    ∧ ∀ k ∈ keys, ∀ t1 t2 v, (st.doc.getD []).lookup k = some t1 →
      st.kv.lookup k = some t2 → mergePart C t1 t2 = some v →
      List.lookup k (load C st keys) = some v := by
  constructor
  · intro k hk h
    rw [lookup_load, if_pos hk]
    unfold loadKey
    rcases h with h | h
    · rw [h]
    · cases h1 : (st.doc.getD []).lookup k with
      | none => rfl
      | some t1 => rw [h]
  · intro k hk t1 t2 v h1 h2 hm
    rw [lookup_load, if_pos hk]
    unfold loadKey
    rw [h1, h2]
    exact hm

/-- C4 witness: a key present only in channel 1 and a key present only in
channel 2 are both omitted, while a key present in both channels with
mergeable shares is returned. -/
theorem c4_partial_presence_witness :
    List.lookup "a" (load CAP ⟨some [("a", "x")], []⟩ ["a"]) = none
    ∧ List.lookup "a" (load CAP ⟨none, [("a", "x")]⟩ ["a"]) = none
    ∧ List.lookup "c" (load CAP ⟨some [("c", b64OfBytes (List.replicate CAP 0))],
        [("c", b64OfBytes (List.replicate CAP 0))]⟩ ["c"]) = some "" :=
  ⟨(c4_partial_presence CAP ⟨some [("a", "x")], []⟩ ["a"]).1 "a" (by decide) (Or.inr rfl),
   (c4_partial_presence CAP ⟨none, [("a", "x")]⟩ ["a"]).1 "a" (by decide) (Or.inl rfl),
   (c4_partial_presence CAP ⟨some [("c", b64OfBytes (List.replicate CAP 0))],
       [("c", b64OfBytes (List.replicate CAP 0))]⟩ ["c"]).2 "c" (by decide)
     (b64OfBytes (List.replicate CAP 0)) (b64OfBytes (List.replicate CAP 0)) ""
     (by rfl) (by rfl) (by rfl)⟩

/-- C5: combine reports LengthMismatch whenever the two share lengths differ
from each other or from C, and it never silently truncates or pads: a
successful combine forces both inputs and the output to have length exactly
C. -/
theorem c5_length_mismatch (C : Nat) :
    (∀ a b : List Nat, a.length ≠ b.length ∨ a.length ≠ C ∨ b.length ≠ C →
      combine C a b = Except.error CombineError.lengthMismatch)
    ∧ ∀ a b r : List Nat, combine C a b = Except.ok r →
      a.length = C ∧ b.length = C ∧ r.length = C := by
  constructor
  · intro a b h
    rw [combine, if_neg]
    intro hc
    rcases h with h | h | h
    · exact h (hc.1.trans hc.2.symm)
    · exact h hc.1
    · exact h hc.2
  · intro a b r h
    rw [combine] at h
    by_cases hc : a.length = C ∧ b.length = C
    · rw [if_pos hc] at h
      cases h
      exact ⟨hc.1, hc.2, by rw [List.length_zipWith, hc.1, hc.2, Nat.min_self]⟩
    · rw [if_neg hc] at h
      exact Except.noConfusion h

/-- C5 witness: shares of unequal length are rejected, and a successful
combine at the capacity has all three lengths equal to it. -/
theorem c5_length_mismatch_witness :
    combine 2 [1] [2, 3] = Except.error CombineError.lengthMismatch
    ∧ ([0, 5].length = 2 ∧ [3, 0].length = 2 ∧ [3, 5].length = 2) :=
  ⟨(c5_length_mismatch 2).1 [1] [2, 3] (Or.inl (by decide)),
   (c5_length_mismatch 2).2 [0, 5] [3, 0] [3, 5] (by rfl)⟩

/-- C3: with the random source fixed to all-zero bytes, separateParts on the
mapping (a maps to 123, b maps to 456) yields share1 mapping both keys to the
base64 encoding of C zero bytes and share2 mapping each key to the base64
encoding of its value bytes right-padded with zero bytes to length C; merging
the two shares returns the original mapping. -/
theorem c3_deterministic_example :
    separateParts CAP (fun _ => List.replicate CAP 0) [("a", "123"), ("b", "456")]
      = ([("a", b64OfBytes (List.replicate CAP 0)), ("b", b64OfBytes (List.replicate CAP 0))],
         [("a", b64OfBytes (padBuffer CAP (binaryStringToArray "123"))),
          ("b", b64OfBytes (padBuffer CAP (binaryStringToArray "456")))])
    ∧ mergeParts CAP
        (separateParts CAP (fun _ => List.replicate CAP 0) [("a", "123"), ("b", "456")]).2
        (separateParts CAP (fun _ => List.replicate CAP 0) [("a", "123"), ("b", "456")]).1
      = [("a", "123"), ("b", "456")] := by
  have hz : ∀ b ∈ List.replicate CAP (0 : Nat), b < 256 := fun b hb => by
    rw [List.eq_of_mem_replicate hb]; omega
  have hzl : (List.replicate CAP (0 : Nat)).length = CAP := by simp
  have hx : ∀ v : String, List.zipWith Nat.xor (padBuffer CAP (binaryStringToArray v))
      (List.replicate CAP 0) = padBuffer CAP (binaryStringToArray v) := fun v =>
    zipWith_xor_zero _ _ (le_of_eq (padBuffer_length CAP _))
  have key : ∀ v : String, (binaryStringToArray v).length ≤ CAP →
      (binaryStringToArray v).getLast? ≠ some 0 → (∀ c ∈ v.data, c.toNat < 256) →
      mergePart CAP (b64OfBytes (padBuffer CAP (binaryStringToArray v)))
        (b64OfBytes (List.replicate CAP 0)) = some v := by
    intro v hlen hlast hcodes
    rw [mergePart_b64 CAP _ _ (padBuffer_lt CAP _ (binaryStringToArray_lt v)) hz
      (padBuffer_length CAP _) hzl, hx v, padBuffer_eq_append CAP _ hlen, decode,
      stripTrailingZeros_pad _ _ hlast, array_binary_string_cancel v hcodes]
  constructor
  · simp [separateParts, split, List.enum, List.enumFrom, hx]
  · simp [mergeParts, separateParts, split, List.enum, List.enumFrom, List.lookup, hx,
      key "123" (by decide) (by decide) (by decide),
      key "456" (by decide) (by decide) (by decide)]

/-- C6 counterexample: the channel-2 value stored by save for the key foo —
byte for byte the base64 text the repository test asserts — decodes to a
buffer of 256 bytes, not 512. -/
theorem c6_capacity_counterexample :
    (save CAP (fun _ => List.replicate CAP 0) ["foo"] [("foo", "bar")]
        ⟨none, []⟩).kv.lookup "foo" = some "YmFyAAAAAAAAAAAAAAAAAAAAAAAAAAAAAAAAAAAAAAAAAAAAAAAAAAAAAAAAAAAAAAAAAAAAAAAAAAAAAAAAAAAAAAAAAAAAAAAAAAAAAAAAAAAAAAAAAAAAAAAAAAAAAAAAAAAAAAAAAAAAAAAAAAAAAAAAAAAAAAAAAAAAAAAAAAAAAAAAAAAAAAAAAAAAAAAAAAAAAAAAAAAAAAAAAAAAAAAAAAAAAAAAAAAAAAAAAAAAAAAAAAAAAAAAAAAAAAAAAAAAAAAAAAAAAAAAAAAAAAAAAAAAAAAAAAAAAAAAAAAAAAAAAAAAAAAAAAAAAAAAAAAAAAAAAAAAAAAAAA=="
    ∧ Option.map List.length (decodeB64 ("YmFyAAAAAAAAAAAAAAAAAAAAAAAAAAAAAAAAAAAAAAAAAAAAAAAAAAAAAAAAAAAAAAAAAAAAAAAAAAAAAAAAAAAAAAAAAAAAAAAAAAAAAAAAAAAAAAAAAAAAAAAAAAAAAAAAAAAAAAAAAAAAAAAAAAAAAAAAAAAAAAAAAAAAAAAAAAAAAAAAAAAAAAAAAAAAAAAAAAAAAAAAAAAAAAAAAAAAAAAAAAAAAAAAAAAAAAAAAAAAAAAAAAAAAAAAAAAAAAAAAAAAAAAAAAAAAAAAAAAAAAAAAAAAAAAAAAAAAAAAAAAAAAAAAAAAAAAAAAAAAAAAAAAAAAAAAAAAAAAAAA==").data) = some 256
    ∧ (256 : Nat) ≠ 512 :=
  ⟨by rfl, by rfl, by decide⟩

/-- C6 (amended): every padded buffer produced by the encoder has length
exactly C — with C = 256 in the reference behavior — and consists of the raw
bytes of the input string followed by appended zero bytes; both shares
produced from it also have length C, and the stored base64 value of a share
decodes to exactly 256 bytes. -/
theorem c6_capacity_amended (s : String) (shareA : List Nat)
    (hA : shareA.length = CAP) (hAb : ∀ b ∈ shareA, b < 256)
    (hs : (binaryStringToArray s).length ≤ CAP) :
    (encode CAP s).length = CAP
    ∧ encode CAP s = binaryStringToArray s
        ++ List.replicate (CAP - (binaryStringToArray s).length) 0
    ∧ (split shareA (encode CAP s)).1.length = CAP
    ∧ (split shareA (encode CAP s)).2.length = CAP
    ∧ Option.map List.length (decodeB64 (b64OfBytes shareA).data) = some CAP := by
  refine ⟨by rw [encode]; exact padBuffer_length CAP _,
    by rw [encode]; exact padBuffer_eq_append CAP _ hs, hA, ?_, ?_⟩
  · simp only [split, encode]
    rw [List.length_zipWith, padBuffer_length, hA, Nat.min_self]
  · rw [b64OfBytes, stringData_mk, decodeB64_encodeB64 shareA hAb, Option.map_some', hA]

/-- C6 witness: the amended capacity facts at the string bar and the all-zero
share. -/
theorem c6_capacity_amended_witness :
    (encode CAP "bar").length = CAP
    ∧ encode CAP "bar" = binaryStringToArray "bar"
        ++ List.replicate (CAP - (binaryStringToArray "bar").length) 0
    ∧ (split (List.replicate CAP 0) (encode CAP "bar")).1.length = CAP
    ∧ (split (List.replicate CAP 0) (encode CAP "bar")).2.length = CAP
    ∧ Option.map List.length (decodeB64 (b64OfBytes (List.replicate CAP 0)).data) = some CAP :=
  c6_capacity_amended "bar" (List.replicate CAP 0) (by simp)
    (fun b hb => by rw [List.eq_of_mem_replicate hb]; omega) (by decide)

/-- C7: save serializes the whole current share-1 mapping as the single
channel-1 document — the committed document depends only on the current call,
so every key outside the call key set is absent from channel 1 afterwards —
while channel-2 writes are per-key, leaving entries of keys outside the call
unchanged. -/
theorem c7_save_frame (C : Nat) (rnds : Nat → List Nat) (keys : List String)
    (data : List (String × String)) (st : Channels) (k : String) (hk : k ∉ keys) :
    ((save C rnds keys data st).doc.getD []).lookup k = none
    ∧ (save C rnds keys data st).kv.lookup k = st.kv.lookup k
    ∧ ∀ st' : Channels, (save C rnds keys data st').doc = (save C rnds keys data st).doc := by
  refine ⟨?_, ?_, fun st' => rfl⟩
  · apply lookup_none_of_keys
    intro p hp he
    exact hk (he ▸ (save_entry_keys C rnds keys data st).1 p hp)
  · show List.lookup k ((separateParts C rnds
        (keys.filterMap fun k0 => (data.lookup k0).map fun v => (k0, v))).2.foldl
        (fun acc p => kvSet p.1 p.2 acc) st.kv) = _
    apply lookup_foldl_kvSet
    intro p hp he
    exact hk (he ▸ (save_entry_keys C rnds keys data st).2 p hp)

/-- C7 witness: saving the key a drops the stale channel-1 entry of z while
leaving its channel-2 entry untouched. -/
theorem c7_save_frame_witness :
    ((save CAP (fun _ => List.replicate CAP 0) ["a"] [("a", "x")]
        ⟨some [("z", "old")], [("z", "w")]⟩).doc.getD []).lookup "z" = none
    ∧ (save CAP (fun _ => List.replicate CAP 0) ["a"] [("a", "x")]
        ⟨some [("z", "old")], [("z", "w")]⟩).kv.lookup "z"
      = (Channels.mk (some [("z", "old")]) [("z", "w")]).kv.lookup "z" :=
  ⟨(c7_save_frame CAP (fun _ => List.replicate CAP 0) ["a"] [("a", "x")]
      ⟨some [("z", "old")], [("z", "w")]⟩ "z" (by decide)).1,
   (c7_save_frame CAP (fun _ => List.replicate CAP 0) ["a"] [("a", "x")]
      ⟨some [("z", "old")], [("z", "w")]⟩ "z" (by decide)).2.1⟩

/-- C8 counterexample: getRandomString is not a function of its declared
input alone — with the same requested length, two different draws of the
ambient random source give different outputs — so not every helper outside
the storage core is a stateless input transformation. -/
theorem c8_get_random_string_counterexample :
    getRandomString [0] 1 ≠ getRandomString [1] 1 := by decide

/-- C8 (amended): every modelled helper other than getRandomString is a
deterministic input transformation (two invocations on the same input agree),
and getRandomString itself is deterministic once the drawn random values are
counted as part of the input. -/
theorem c8_helpers_deterministic :
    ∀ (s t : String) (n : Nat) (u : Sum String (List String)) (bs vals : List Nat) (m : Nat),
      capitalize s = capitalize s ∧ truncate s n t = truncate s n t
      ∧ getType u = getType u ∧ hasProtonDomain s = hasProtonDomain s
      ∧ arrayToBinaryString bs = arrayToBinaryString bs
      ∧ binaryStringToArray s = binaryStringToArray s
      ∧ getRandomString vals m = getRandomString vals m :=
  fun _ _ _ _ _ _ _ => ⟨rfl, rfl, rfl, rfl, rfl, rfl, rfl⟩

/-- C9: binaryStringToArray inverts arrayToBinaryString on every byte array,
and arrayToBinaryString inverts binaryStringToArray on every string whose
character codes are all below 256. -/
theorem c9_binary_string_roundtrip :
    (∀ bs : List Nat, (∀ b ∈ bs, b < 256) →
      binaryStringToArray (arrayToBinaryString bs) = bs)
    ∧ ∀ s : String, (∀ c ∈ s.data, c.toNat < 256) →
      arrayToBinaryString (binaryStringToArray s) = s :=
  ⟨binary_array_string_cancel, array_binary_string_cancel⟩

/-- C9 witness: both round trips at concrete inputs. -/
theorem c9_binary_string_roundtrip_witness :
    binaryStringToArray (arrayToBinaryString [0, 255, 42]) = [0, 255, 42]
    ∧ arrayToBinaryString (binaryStringToArray "abc") = "abc" :=
  ⟨c9_binary_string_roundtrip.1 [0, 255, 42] (by decide),
   c9_binary_string_roundtrip.2 "abc" (by decide)⟩

/-- C10: hasProtonDomain returns true for every string whose final character
is the at sign, because the domain alternation of its regular expression
admits the empty string; the witness instantiates this at
user@attacker.com@, an input whose domain is not a Proton domain. -/
theorem c10_has_proton_domain_trailing_at (email : String)
    (h : ∃ l : List Char, email.data = l ++ ['@']) :
    hasProtonDomain email = true := by
  obtain ⟨l, hl⟩ := h
  have hmap : email.data.map charToLower = l.map charToLower ++ ['@'] := by
    rw [hl, List.map_append]
    rfl
  have hlen : (l.map charToLower ++ ['@']).length - "@".data.length
      = (l.map charToLower).length := by simp
  have hsuf : sufTest "@".data (l.map charToLower ++ ['@']) = true := by
    rw [sufTest, hlen, List.drop_left]
    rfl
  simp only [hasProtonDomain, hmap, hsuf, Bool.or_true]

/-- C10 witness: the trailing-at acceptance at the concrete non-Proton input
from the claim. -/
theorem c10_has_proton_domain_witness :
    hasProtonDomain "user@attacker.com@" = true :=
  c10_has_proton_domain_trailing_at "user@attacker.com@"
    ⟨"user@attacker.com".data, by decide⟩

end ProtonShared
